import Mathlib

/-!
Verification of the `distdb` LSM-tree storage engine against its specification.

The development shallowly embeds the storage engine's core data structures and
algorithms: the skiplist memtable, the write-ahead log and its envelope codec,
the SSTable builder, reader and iterator (at the byte level, with 8-byte
big-endian fields), the k-way merging iterator used by compaction, and the LSM
tree's `Set`/`Get`/`mergeLayer` operations.

Modelling conventions:
* Go strings and byte slices are byte lists (`List Nat`, each element < 256 at
  the points where it matters); Go's `<` on strings is the lexicographic byte
  order `keyLt`.
* Machine integers are `Nat`/`Int` with explicit wrap-around (`% 2 ^ 64`)
  exactly where Go's `uint64` conversions and additions can wrap.
* File-system effects are made explicit: the WAL file is a record list plus a
  `failing` flag standing for an injected I/O write error; a missing runtime
  slice bound (a Go panic) is an `Option` `none` / a `fault` result; fallible
  operations return `Except String`.
* The skiplist's probabilistic towers are search accelerators only: every
  observable behaviour of `Get`/`Insert`/`Iterate` is determined by the sorted
  level-0 list together with the head sentinel's value slot, which is exactly
  the state embedded here.  The source's `Insert`, after descending, holds in
  `node` the level-0 predecessor of the key and in `final = node.next[0]` the
  candidate match; on a match it assigns `node.value` (the predecessor's value
  slot, or the head sentinel's) and returns the predecessor's old value.  The
  embedding reproduces that assignment faithfully.
-/

/-- Keys and values are Go strings / byte slices, embedded as byte lists. -/
abbrev Key := List Nat

/-- Go's `<` on strings: lexicographic comparison of the underlying bytes. -/
def keyLt : Key → Key → Bool
  | [], [] => false
  | [], _ :: _ => true
  | _ :: _, [] => false
  | a :: as, b :: bs => if a < b then true else if b < a then false else keyLt as bs

/-- Record kind tag for writes (source constant `RecordKindWrite = 0x1000`). -/
def RecordKindWrite : Nat := 0x1000

/-- Record kind tag for deletes (source constant `RecordKindDelete = 0x1001`). -/
def RecordKindDelete : Nat := 0x1001

/-- One `(key, kind, data)` entry flowing through chunk iterators and the
merging iterator (source struct `entry`). -/
structure Entry where
  key : Key
  kind : Nat
  data : List Nat
deriving DecidableEq

/-- Accumulator loop of the source's `getMin`: scans the current head entries
left to right keeping the first index attaining the strictly smallest key. -/
def getMinAux : List (Option Entry) → Nat → Option (Nat × Key) → Option (Nat × Key)
  | [], _, acc => acc
  | none :: rest, i, acc => getMinAux rest (i + 1) acc
  | some e :: rest, i, none => getMinAux rest (i + 1) (some (i, e.key))
  | some e :: rest, i, some (m, mk) =>
      getMinAux rest (i + 1) (if keyLt e.key mk then some (i, e.key) else some (m, mk))

/-- Source `getMin`: index of the minimum current entry, `none` when every
iterator is exhausted (the source's `(min, exists)` pair). -/
def getMin (es : List (Option Entry)) : Option Nat :=
  (getMinAux es 0 none).map Prod.fst

/-- Total number of entries still held by the chunk iterators. -/
def totalLen (its : List (List Entry)) : Nat :=
  (its.map List.length).sum

/-- Fuelled loop of the source's `getEntries`: repeatedly emit the minimum
head entry and advance that iterator.  A chunk iterator is embedded as the
list of entries it has yet to yield, so advancing is dropping the head.  The
fuel (one more than the total entry count at the top call) never runs out. -/
def getEntriesAux : Nat → List (List Entry) → List Entry
  | 0, _ => []
  | fuel + 1, its =>
    match getMin (its.map List.head?) with
    | none => []
    | some m =>
      match its[m]? with
      | some (e :: t) => e :: getEntriesAux fuel (its.set m t)
      | some [] => []
      | none => []

/-- Source `getEntries`: the merged, ordered stream of all input entries. -/
def getEntries (its : List (List Entry)) : List Entry :=
  getEntriesAux (totalLen its + 1) its

/-- The builder write issued by the source's `parallellMerge` for an emitted
entry: `tbl.Write(entry.key, RecordKindWrite, entry.data)`. -/
def reKindW (e : Entry) : Entry :=
  ⟨e.key, RecordKindWrite, e.data⟩

/-- Deduplication loop of the source's `parallellMerge`: each merged entry is
written to the builder unless its key equals the previously seen key; the
previous key starts as the empty string and is updated after every entry. -/
def parallellMergeLoop : Key → List Entry → List Entry
  | _, [] => []
  | prevKey, e :: rest =>
    if e.key = prevKey then parallellMergeLoop e.key rest
    else reKindW e :: parallellMergeLoop e.key rest

/-- Source `parallellMerge`, observed as the sequence of `Write` calls it
issues to the SSTable builder. -/
def parallellMerge (its : List (List Entry)) : List Entry :=
  parallellMergeLoop [] (getEntries its)

/-- Strictly ascending keys on adjacent entries (an iterator's yield order). -/
def ascE : List Entry → Bool
  | [] => true
  | [_] => true
  | a :: b :: rest => keyLt a.key b.key && ascE (b :: rest)

/-- Non-decreasing keys on adjacent entries (the raw merged stream). -/
def nondecE : List Entry → Bool
  | [] => true
  | [_] => true
  | a :: b :: rest => !keyLt b.key a.key && nondecE (b :: rest)

/-- Every key in the list is at least `p`. -/
def lbE (p : Key) (l : List Entry) : Bool :=
  l.all fun x => !keyLt x.key p

/-- No two entries of the list share a key. -/
def noDupKeysE : List Entry → Bool
  | [] => true
  | a :: rest => (rest.all fun b => !(a.key == b.key)) && noDupKeysE rest

/-- A skiplist value entry of the memtable (source struct `skiplistEntry`). -/
structure SkiplistEntry where
  kind : Nat
  data : List Nat
deriving DecidableEq

/-- The observable state of the source's generic `SkipList` (instantiated at
string keys by the memtable): the sorted level-0 element list, the head
sentinel's value slot, and the tracked entry count.  See the module comment
for why the probabilistic towers need not be represented. -/
structure SkipList (V : Type) where
  headValue : Option V
  elems : List (Key × V)
  numEntries : Nat
deriving DecidableEq

/-- Source `NewSkipList` (the `numLayers` parameter only sizes the towers). -/
def NewSkipList (V : Type) : SkipList V :=
  ⟨none, [], 0⟩

/-- Source `SkipList.Get`: descend to the level-0 predecessor of `key`, then
test its successor `final` for an exact match. -/
def SkipList.Get {V : Type} (l : SkipList V) (key : Key) : Option V :=
  match l.elems.dropWhile (fun p => keyLt p.1 key) with
  | (k, v) :: _ => if k = key then some v else none
  | [] => none

/-- Source `SkipList.Insert`.  On a match of `final = node.next[0]` the source
assigns `node.value = &value` and returns `node.value`'s old contents — `node`
being the predecessor (possibly the head sentinel), not the matched element —
so the matched element keeps its old value.  On a miss a fresh element is
linked in at the level-0 position and `numEntries` is incremented. -/
def SkipList.Insert {V : Type} (l : SkipList V) (key : Key) (value : V) :
    Option V × SkipList V :=
  let before := l.elems.takeWhile fun p => keyLt p.1 key
  let after := l.elems.dropWhile fun p => keyLt p.1 key
  match after with
  | (k, _) :: _ =>
    if k = key then
      match before.getLast? with
      | none => (l.headValue, { l with headValue := some value })
      | some (pk, pv) =>
        (some pv, { l with elems := before.dropLast ++ (pk, value) :: after })
    else
      (none, { l with elems := before ++ (key, value) :: after,
                      numEntries := l.numEntries + 1 })
  | [] =>
    (none, { l with elems := before ++ [(key, value)],
                    numEntries := l.numEntries + 1 })

/-- Source `SkipList.Iterate`: the elements in ascending key order. -/
def SkipList.Iterate {V : Type} (l : SkipList V) : List (Key × V) :=
  l.elems

/-- Source `SkipList.Len`. -/
def SkipList.Len {V : Type} (l : SkipList V) : Nat :=
  l.numEntries

/-- A WAL record (source struct `WALEntry` with fields `Kind`, `Key`, `Data`). -/
structure WALEntry where
  Kind : Nat
  Key : List Nat
  Data : List Nat
deriving DecidableEq

/-- An open WAL file: the records appended since it was opened, plus a flag
injecting an I/O failure for every write (modelling `os.File.Write` errors). -/
structure WAL where
  entries : List WALEntry
  failing : Bool
deriving DecidableEq

/-- Source `WAL.Write`: marshal the record, append it and the separator byte;
an underlying file-write failure surfaces as the returned error. -/
def WAL.Write (w : WAL) (kind : Nat) (key data : List Nat) : Except String WAL :=
  if w.failing then .error "wal write io error"
  else .ok { w with entries := w.entries ++ [⟨kind, key, data⟩] }

/-- Splitting behaviour of `bufio.Reader.ReadBytes('\n')` over a whole file:
each returned chunk includes its terminating separator byte; a final chunk
without a separator is returned together with `io.EOF`. -/
def splitRecords : List Nat → List Nat → List (List Nat)
  | [], acc => if acc.isEmpty then [] else [acc.reverse]
  | b :: rest, acc =>
    if b = 10 then (acc.reverse ++ [10]) :: splitRecords rest []
    else splitRecords rest (b :: acc)

/-- Byte pattern opening a marshalled envelope up to the `Kind` value. -/
def jsonKindTag : List Nat := [123, 34, 75, 105, 110, 100, 34, 58]

/-- Byte pattern between the `Kind` value and the `Key` string contents. -/
def jsonKeyTag : List Nat := [44, 34, 75, 101, 121, 34, 58, 34]

/-- Byte pattern closing the `Key` string and carrying a null `Data` payload
through the closing brace. -/
def jsonDataNullTag : List Nat := [34, 44, 34, 68, 97, 116, 97, 34, 58, 110, 117, 108, 108, 125]

/-- Consume an exact byte pattern from the front of the input. -/
def stripTag : List Nat → List Nat → Option (List Nat)
  | [], s => some s
  | _ :: _, [] => none
  | p :: ps, b :: rest => if b = p then stripTag ps rest else none

/-- ASCII decimal digit test. -/
def isDigitByte (b : Nat) : Bool := 48 ≤ b && b ≤ 57

/-- Bytes allowed verbatim inside a marshalled JSON string. -/
def isPlainKeyByte (b : Nat) : Bool := 32 ≤ b && b ≠ 34 && b ≠ 92

/-- The canonical bytes `encoding/json.Marshal` produces for a `WALEntry`
with a nil `Data` payload. -/
def marshalWALEntry (kind : Nat) (key : List Nat) : List Nat :=
  jsonKindTag ++ (Nat.toDigits 10 kind).map Char.toNat ++ jsonKeyTag ++ key ++ jsonDataNullTag

/-- Model of `encoding/json.Unmarshal` into a `WALEntry`, restricted to the
canonical envelope shape `marshalWALEntry` produces (decimal `Kind`, plain
string `Key`, null `Data`), with an optional trailing separator byte, which
`Unmarshal` skips as whitespace.  Canonical envelopes decode to their record;
bytes outside this shape — in particular any nonempty strict truncation of an
envelope, which is malformed JSON — are rejected, as `Unmarshal` rejects them. -/
def jsonDecodeWALEntry (bs : List Nat) : Option WALEntry := do
  let s ← stripTag jsonKindTag bs
  let ds := s.takeWhile isDigitByte
  if ds.isEmpty then none
  else
    let kind := ds.foldl (fun acc d => acc * 10 + (d - 48)) 0
    let s := s.dropWhile isDigitByte
    let s ← stripTag jsonKeyTag s
    let key := s.takeWhile isPlainKeyByte
    let s := s.dropWhile isPlainKeyByte
    let s ← stripTag jsonDataNullTag s
    if s = [] ∨ s = [10] then some ⟨kind, key, []⟩ else none

/-- Record-by-record decoding loop of the source's `LoadWAL`: every nonempty
chunk must unmarshal, otherwise the whole load fails and no entries are
returned. -/
def loadWALChunks : List (List Nat) → Except String (List WALEntry)
  | [] => .ok []
  | c :: rest =>
    if c.length = 0 then loadWALChunks rest
    else
      match jsonDecodeWALEntry c with
      | none => .error "wal json unmarshal failed"
      | some e =>
        match loadWALChunks rest with
        | .ok es => .ok (e :: es)
        | .error err => .error err

/-- Source `LoadWAL` applied to the bytes of an existing WAL file: split on
the separator byte and unmarshal each nonempty chunk, oldest first. -/
def LoadWAL (bs : List Nat) : Except String (List WALEntry) :=
  loadWALChunks (splitRecords bs [])

/-- Boolean success test for an `Except` result. -/
def exceptIsOk {ε α : Type} : Except ε α → Bool
  | .ok _ => true
  | .error _ => false

/-- The source's memtable chunk (`skiplistChunk`): skiplist, open WAL and the
tracked `dataSize`. -/
structure SkiplistChunk where
  list : SkipList SkiplistEntry
  wal : WAL
  dataSize : Nat
deriving DecidableEq

/-- Source `newSkipListChunk` over the named WAL file's current contents
(`none` when the file does not exist).  The error returned by `LoadWAL` is
discarded (it is shadowed by the following `NewWAL` assignment), and on any
load error `LoadWAL` returns nil entries, so replay starts empty.  Replay
inserts each loaded record into the skiplist without touching `dataSize`. -/
def newSkipListChunk (file : Option (List Nat)) : SkiplistChunk :=
  let walEntries :=
    match file with
    | none => []
    | some bs =>
      match LoadWAL bs with
      | .ok es => es
      | .error _ => []
  let list := walEntries.foldl
    (fun l e => (SkipList.Insert l e.Key ⟨e.Kind, e.Data⟩).2)
    (NewSkipList SkiplistEntry)
  ⟨list, ⟨[], false⟩, 0⟩

/-- Source `skiplistChunk.set`: append to the WAL first; on WAL failure the
error is returned and the skiplist is left untouched.  On success the entry is
upserted and `dataSize` is updated with Go's `uint64` wrap-around semantics
(`uint64(len(data) - len(oldValue.data))`). -/
def SkiplistChunk.set (c : SkiplistChunk) (key : Key) (kind : Nat) (data : List Nat) :
    SkiplistChunk × Except String Unit :=
  match c.wal.Write kind key data with
  | .error e => (c, .error e)
  | .ok w =>
    let r := c.list.Insert key ⟨kind, data⟩
    let dataSize :=
      match r.1 with
      | some ov =>
        (c.dataSize + (((data.length : Int) - (ov.data.length : Int)).emod (2 ^ 64)).toNat) % 2 ^ 64
      | none => (c.dataSize + data.length) % 2 ^ 64
    (⟨r.2, w, dataSize⟩, .ok ())

/-- Source `skiplistChunk.get` (its error result is always nil). -/
def SkiplistChunk.get (c : SkiplistChunk) (key : Key) : Nat × List Nat × Bool :=
  match c.list.Get key with
  | none => (0, [], false)
  | some v => (v.kind, v.data, true)

/-- Source `skiplistChunk.iterator`, observed as the entry list it yields. -/
def SkiplistChunk.iterEntries (c : SkiplistChunk) : List Entry :=
  c.list.Iterate.map fun p => ⟨p.1, p.2.kind, p.2.data⟩

/-- 8-byte big-endian encoding of a `uint64` (`binary.BigEndian.PutUint64`). -/
def be64 (n : Nat) : List Nat :=
  [n / 2 ^ 56 % 256, n / 2 ^ 48 % 256, n / 2 ^ 40 % 256, n / 2 ^ 32 % 256,
   n / 2 ^ 24 % 256, n / 2 ^ 16 % 256, n / 2 ^ 8 % 256, n % 256]

/-- Big-endian decoding of a byte list (`binary.BigEndian.Uint64`). -/
def readBe64 (bs : List Nat) : Nat :=
  bs.foldl (fun acc b => acc * 256 + b) 0

/-- Reading `n` bytes at offset `off` from an in-memory or memory-mapped byte
sequence.  `io.ReaderAt` (and a Go slice expression) demands all `n` bytes;
anything short is an error (respectively a bounds fault), embedded as `none`. -/
def readAt (bs : List Nat) (n : Nat) (off : Nat) : Option (List Nat) :=
  if off + n ≤ bs.length then some ((bs.drop off).take n) else none

/-- The source's `SSTableBuilder`: bloom filter under construction (the key
set fed to `filter.Add`), the data and index byte streams with their write
positions, the accumulating sparse index, order enforcement state and
metadata. -/
structure SSTableBuilder where
  filterKeys : List Key
  dataBytes : List Nat
  dataPosition : Nat
  indexBytes : List Nat
  indexPosition : Nat
  sparseIndex : List (Key × Nat)
  sparseIndexBlockSize : Nat
  built : Bool
  previousKey : Key
  numEntries : Nat
deriving DecidableEq

/-- Source `NewSSTable` (the element estimate only sizes the bloom filter). -/
def NewSSTable (numElements : Nat) : SSTableBuilder :=
  { filterKeys := []
    dataBytes := []
    dataPosition := 0
    indexBytes := []
    indexPosition := 0
    sparseIndex := []
    sparseIndexBlockSize := 8 * 1024
    built := false
    previousKey := []
    numEntries := numElements - numElements }

/-- Source `SSTableBuilder.currentSparseIndexBlockSize`: distance from the
last sparse anchor to the current index position; with no anchor yet it
returns the block size itself, forcing an anchor at position 0. -/
def SSTableBuilder.currentSparseIndexBlockSize (s : SSTableBuilder) : Nat :=
  match s.sparseIndex.getLast? with
  | none => s.sparseIndexBlockSize
  | some a => s.indexPosition - a.2

/-- Source `SSTableBuilder.Write`: reject writes to a built table and keys
below the previous key; append a sparse anchor when due; append the index
entry `kind ‖ keyLen ‖ key ‖ dataOffset` (all numbers 8-byte big-endian) and
the data entry `0x01 ‖ valueLen ‖ value`; record the key in the bloom filter
and bump the entry count. -/
def SSTableBuilder.Write (s : SSTableBuilder) (key : Key) (kind : Nat) (data : List Nat) :
    SSTableBuilder × Except String Unit :=
  if s.built then (s, .error "cannot write to a built SSTable, data structure is immutable")
  else if keyLt key s.previousKey then (s, .error "must add keys in ascending order to SSTable")
  else
    let s1 := { s with previousKey := key }
    let s2 :=
      if s1.sparseIndexBlockSize ≤ s1.currentSparseIndexBlockSize then
        { s1 with sparseIndex := s1.sparseIndex ++ [(key, s1.indexPosition)] }
      else s1
    let ientry := be64 kind ++ be64 key.length ++ key ++ be64 s2.dataPosition
    let s3 := { s2 with indexBytes := s2.indexBytes ++ ientry,
                        indexPosition := s2.indexPosition + ientry.length }
    let dentry := 1 :: (be64 data.length ++ data)
    let s4 := { s3 with dataBytes := s3.dataBytes ++ dentry,
                        dataPosition := s3.dataPosition + dentry.length }
    ({ s4 with filterKeys := s4.filterKeys ++ [key], numEntries := s4.numEntries + 1 }, .ok ())

/-- A loaded, immutable SSTable.  `filterKeys` are the keys the builder added
to the bloom filter; `filterExtra` stands for the filter's false positives (a
bloom filter may accept keys never added, but never rejects an added key). -/
structure SSTable where
  filterKeys : List Key
  filterExtra : List Key
  dataBytes : List Nat
  indexBytes : List Nat
  sparseIndex : List (Key × Nat)
  numEntries : Nat
deriving DecidableEq

/-- Source `SSTableBuilder.Build`: reject a second build; persist the filter,
sparse index and metadata, flush and sync the byte streams, and reopen them as
an immutable `SSTable` (the on-disk round-trip is the identity on this data;
`filterExtra` fixes which false positives the serialized filter exhibits). -/
def SSTableBuilder.Build (s : SSTableBuilder) (filterExtra : List Key) :
    Except String SSTable :=
  if s.built then .error "sstable already built"
  else .ok ⟨s.filterKeys, filterExtra, s.dataBytes, s.indexBytes, s.sparseIndex, s.numEntries⟩

/-- The bloom filter's `Test`: true for every added key, plus the modelled
false positives. -/
def SSTable.filterTest (t : SSTable) (key : Key) : Bool :=
  t.filterKeys.contains key || t.filterExtra.contains key

/-- Binary-search loop of the source's `getIndexRange` over the sparse index,
entered when the key is below the last anchor.  `none` embeds a Go slice
index-out-of-range panic (`sparseIndex[min+1]` past the end).  The fuel is
generous; the loop shrinks `max - min` every iteration. -/
def girLoop (sp : List (Key × Nat)) (key : Key) : Nat → Nat → Nat → Option (Nat × Nat)
  | 0, _, _ => none
  | fuel + 1, mn, mx =>
    if mx = mn then
      match sp[mn]?, sp[mn + 1]? with
      | some a, some b => some (a.2, b.2)
      | _, _ => none
    else
      let idx := (mn + mx) / 2 + (mn + mx) % 2
      match sp[idx]? with
      | none => none
      | some v =>
        if keyLt key v.1 then girLoop sp key fuel mn (idx - 1)
        else if keyLt v.1 key then girLoop sp key fuel idx mx
        else
          match sp[idx]?, sp[idx + 1]? with
          | some a, some b => some (a.2, b.2)
          | _, _ => none

/-- Source `SSTable.getIndexRange`: the last anchor is special-cased, then a
binary search narrows to one sparse-index block.  An empty sparse index would
fault on `sparseIndex[len-1]`. -/
def SSTable.getIndexRange (t : SSTable) (key : Key) : Option (Nat × Nat) :=
  match t.sparseIndex.getLast? with
  | none => none
  | some last =>
    if keyLt key last.1 = false then some (last.2, t.indexBytes.length)
    else girLoop t.sparseIndex key (t.sparseIndex.length + 1) 0 (t.sparseIndex.length - 1)

/-- Scan loop of the source's `scanIndex` over the loaded index slice: decode
`kind ‖ keyLen ‖ key ‖ dataOffset` records until the key matches or the slice
is exhausted.  `none` embeds a slice-bounds fault; the fuel is generous. -/
def scanLoop (buffer : List Nat) (key : Key) : Nat → Nat → Option (Nat × Nat × Bool)
  | 0, _ => none
  | fuel + 1, i =>
    if i < buffer.length then
      match readAt buffer 8 i with
      | none => none
      | some kb =>
        match readAt buffer 8 (i + 8) with
        | none => none
        | some lb =>
          let keyLen := readBe64 lb
          match readAt buffer keyLen (i + 16) with
          | none => none
          | some bufferKey =>
            if bufferKey = key then
              match readAt buffer 8 (i + 16 + keyLen) with
              | none => none
              | some ob => some (readBe64 kb, readBe64 ob, true)
            else scanLoop buffer key fuel (i + keyLen + 24)
    else some (0, 0, false)

/-- Source `SSTable.getDataEntry`: one tag byte, an 8-byte length, then the
value bytes, read from the data file at the given offset. -/
def SSTable.getDataEntry (t : SSTable) (offset : Nat) : Option (List Nat) :=
  match readAt t.dataBytes 1 offset with
  | none => none
  | some _ =>
    match readAt t.dataBytes 8 (offset + 1) with
    | none => none
    | some nb => readAt t.dataBytes (readBe64 nb) (offset + 1 + 8)

/-- Outcome of an SSTable point read: a runtime fault (Go panic), a returned
I/O error, or the `(kind, data, found)` triple. -/
inductive ReadResult where
  | fault : ReadResult
  | ioError (msg : String) : ReadResult
  | ok (kind : Nat) (data : List Nat) (found : Bool) : ReadResult
deriving DecidableEq

/-- Source `SSTable.Read`: bloom filter gate, sparse-index range lookup, index
scan, then data fetch. -/
def SSTable.Read (t : SSTable) (key : Key) : ReadResult :=
  if t.filterTest key = false then .ok 0 [] false
  else
    match t.getIndexRange key with
    | none => .fault
    | some r =>
      match readAt t.indexBytes (r.2 - r.1) r.1 with
      | none => .ioError "index read failed"
      | some buffer =>
        match scanLoop buffer key (buffer.length + 1) 0 with
        | none => .fault
        | some (kind, dataOffset, found) =>
          if found = false then .ok 0 [] false
          else
            match t.getDataEntry dataOffset with
            | none => .ioError "data read failed"
            | some data => .ok kind data true

/-- Cursor state of the source's `SSTableIterator`. -/
structure SSTableIterator where
  kind : Nat
  key : List Nat
  value : List Nat
  nextIndexOffset : Nat
deriving DecidableEq

/-- Source `SSTableIterator.Next`: end of stream when the offset equals the
index length; otherwise decode one index record and fetch its data entry.
Both `io.EOF` and read errors are embedded as `none` (the chunk-iterator
wrapper discards the distinction).  The advance
`nextIndexOffset + 8 + keyLen + 8` is the source's, verbatim. -/
def SSTable.iterNext (t : SSTable) (nextIndexOffset : Nat) : Option SSTableIterator :=
  if nextIndexOffset = t.indexBytes.length then none
  else
    match readAt t.indexBytes 8 nextIndexOffset with
    | none => none
    | some kb =>
      match readAt t.indexBytes 8 (nextIndexOffset + 8) with
      | none => none
      | some lb =>
        let keyLen := readBe64 lb
        match readAt t.indexBytes keyLen (nextIndexOffset + 8 + 8) with
        | none => none
        | some keyBuffer =>
          match readAt t.indexBytes 8 (nextIndexOffset + 8 + 8 + keyLen) with
          | none => none
          | some ob =>
            match t.getDataEntry (readBe64 ob) with
            | none => none
            | some dataBuffer =>
              some ⟨readBe64 kb, keyBuffer, dataBuffer, nextIndexOffset + 8 + keyLen + 8⟩

/-- Collect the `(kind, key, value)` triples yielded by repeatedly calling
`Next` from the given offset (fuelled; each successful step advances). -/
def SSTable.iterEntriesAux (t : SSTable) : Nat → Nat → List Entry
  | 0, _ => []
  | fuel + 1, off =>
    match t.iterNext off with
    | none => []
    | some it => ⟨it.key, it.kind, it.value⟩ :: t.iterEntriesAux fuel it.nextIndexOffset

/-- Iterating a loaded SSTable from the start (source `SSTable.Iterator`
followed by successive `Next` calls until end of stream or error). -/
def SSTable.iterEntries (t : SSTable) : List Entry :=
  t.iterEntriesAux (t.indexBytes.length + 1) 0

/-- The two chunk payload kinds of the LSM tree. -/
inductive ChunkData where
  | skiplist (c : SkiplistChunk)
  | sstable (t : SSTable)
deriving DecidableEq

/-- Dispatch of `chunkData.get` over the two chunk kinds. -/
def ChunkData.get : ChunkData → Key → ReadResult
  | .skiplist c, key =>
    match c.list.Get key with
    | none => .ok 0 [] false
    | some v => .ok v.kind v.data true
  | .sstable t, key => t.Read key

/-- Dispatch of `chunkData.set`: SSTable chunks reject writes. -/
def ChunkData.set : ChunkData → Key → Nat → List Nat → ChunkData × Except String Unit
  | .skiplist c, key, kind, data =>
    let r := c.set key kind data
    (.skiplist r.1, r.2)
  | .sstable t, _, _, _ => (.sstable t, .error "write not supported for SSTable chunk")

/-- Dispatch of `chunkData.size`. -/
def ChunkData.size : ChunkData → Nat
  | .skiplist c => c.dataSize
  | .sstable t => t.dataBytes.length

/-- Dispatch of `chunkData.numEntries`. -/
def ChunkData.numEntries : ChunkData → Nat
  | .skiplist c => c.list.Len
  | .sstable t => t.numEntries

/-- Dispatch of `chunkData.iterator`, observed as the yielded entry list. -/
def ChunkData.iterEntries : ChunkData → List Entry
  | .skiplist c => c.iterEntries
  | .sstable t => t.iterEntries

/-- A named chunk (source struct `chunk`; `chunkType` 1 = memtable,
2 = sstable). -/
structure Chunk where
  name : String
  data : ChunkData
  chunkType : Nat
deriving DecidableEq

/-- A layer of the tree (source struct `layer`; the lock is not part of the
observable state). -/
structure LsmLayer where
  name : String
  maxChunks : Nat
  chunks : List Chunk
deriving DecidableEq

/-- The LSM tree's observable state (source struct `LsmTree`; `rootDir` and
the shutdown channel carry no data relevant here). -/
structure LsmTree where
  layers : List LsmLayer
  rootChunk : Chunk
  maxRootChunkSize : Nat
deriving DecidableEq

/-- Source `NewLsmTree` for a fresh directory: a fresh memtable root and the
default four layers with capacities 4, 8, 4 and unbounded. -/
def NewLsmTree (rootChunkName : String) : LsmTree :=
  { rootChunk := ⟨rootChunkName, .skiplist (newSkipListChunk none), 1⟩
    maxRootChunkSize := 16 * 1024 * 1024
    layers := [⟨"layer-0", 4, []⟩, ⟨"layer-1", 8, []⟩, ⟨"layer-2", 4, []⟩, ⟨"layer-3", 0, []⟩] }

/-- Source `LsmTree.Set`: write a `RecordKindWrite` record to the root chunk —
discarding the error `set` returns — then rotate the memtable into layer 0
when its tracked size exceeds the threshold.  `freshRootName` stands for the
random name generated for the replacement memtable; the manifest save is
modelled as succeeding. -/
def LsmTree.Set (tree : LsmTree) (key : Key) (data : List Nat) (freshRootName : String) :
    LsmTree × Except String Unit :=
  let r := tree.rootChunk.data.set key RecordKindWrite data
  let tree := { tree with rootChunk := { tree.rootChunk with data := r.1 } }
  if tree.maxRootChunkSize < tree.rootChunk.data.size then
    let layers :=
      match tree.layers with
      | l0 :: rest => { l0 with chunks := tree.rootChunk :: l0.chunks } :: rest
      | [] => tree.layers
    let newRoot : Chunk := ⟨freshRootName, .skiplist (newSkipListChunk none), 1⟩
    ({ tree with layers := layers, rootChunk := newRoot }, .ok ())
  else (tree, .ok ())

/-- Outcome of an LSM point read. -/
inductive LsmGetResult where
  | fault : LsmGetResult
  | ioError (msg : String) : LsmGetResult
  | ok (data : List Nat) (found : Bool) : LsmGetResult
deriving DecidableEq

/-- Inner loop of `LsmTree.Get` over one layer's chunks, newest first: a
tombstone short-circuits to not-found, a hit returns the data, errors
propagate; `none` means this layer has no verdict. -/
def scanLayerChunks : List Chunk → Key → Option LsmGetResult
  | [], _ => none
  | c :: rest, key =>
    match c.data.get key with
    | .fault => some .fault
    | .ioError e => some (.ioError e)
    | .ok kind data found =>
      if kind = RecordKindDelete then some (.ok [] false)
      else if found then some (.ok data true)
      else scanLayerChunks rest key

/-- Outer loop of `LsmTree.Get` over the layers, youngest first. -/
def scanLayers : List LsmLayer → Key → Option LsmGetResult
  | [], _ => none
  | l :: rest, key =>
    match scanLayerChunks l.chunks key with
    | some r => some r
    | none => scanLayers rest key

/-- Source `LsmTree.Get`: the memtable first (tombstone check before the hit
check), then every layer's chunks in order; a full miss yields an empty value
and `found = false`. -/
def LsmTree.Get (tree : LsmTree) (key : Key) : LsmGetResult :=
  match tree.rootChunk.data.get key with
  | .fault => .fault
  | .ioError e => .ioError e
  | .ok kind data found =>
    if kind = RecordKindDelete then .ok [] false
    else if found then .ok data true
    else
      match scanLayers tree.layers key with
      | some r => r
      | none => .ok [] false

/-- Result of a `mergeLayer` call: the tree afterwards, the names of the
source chunks whose on-disk artifacts were deleted, and the returned error. -/
structure MergeOutcome where
  tree : LsmTree
  deletedChunks : List String
  result : Except String Unit

/-- Source `LsmTree.mergeLayer`.  The Go code copies the layer struct by value
(`l := tree.layers[layerIdx]`), so its later `l.chunks = nil` clears only the
local copy — the tree's own layer list is not modified; only the target layer,
reached through a pointer (`&tree.layers[nextLayerIdx]`), is updated by
prepending the freshly built SSTable chunk.  After the manifest save (modelled
as succeeding) the source chunks' on-disk artifacts are deleted.  `chunkName`
stands for the fresh random name `generateChunkName` produces. -/
def LsmTree.mergeLayer (tree : LsmTree) (layerIdx : Nat) (chunkName : String) : MergeOutcome :=
  match tree.layers[layerIdx]? with
  | none => ⟨tree, [], .error "layer index out of range"⟩
  | some l =>
    let chunks := l.chunks
    let numEntries := (chunks.map fun c => c.data.numEntries).sum
    let nextLayerIdx := if layerIdx < tree.layers.length - 1 then layerIdx + 1 else layerIdx
    let tblBuilder := NewSSTable numEntries
    let chunkIts := chunks.map fun c => c.data.iterEntries
    let writes := parallellMerge chunkIts
    let tblBuilder := writes.foldl (fun b e => (b.Write e.key e.kind e.data).1) tblBuilder
    match tblBuilder.Build [] with
    | .error e => ⟨tree, [], .error e⟩
    | .ok tbl =>
      let newChunk : Chunk := ⟨chunkName, .sstable tbl, 2⟩
      let layers :=
        match tree.layers[nextLayerIdx]? with
        | none => tree.layers
        | some nl => tree.layers.set nextLayerIdx { nl with chunks := newChunk :: nl.chunks }
      ⟨{ tree with layers := layers }, chunks.map fun c => c.name, .ok ()⟩

/-- Fixture: a memtable chunk whose WAL injects write failures. -/
def failingWalChunk : SkiplistChunk :=
  ⟨NewSkipList SkiplistEntry, ⟨[], true⟩, 0⟩

/-- Fixture: a tree whose root memtable sits on the failing WAL. -/
def failingRootTree : LsmTree :=
  { NewLsmTree "root" with rootChunk := ⟨"root", .skiplist failingWalChunk, 1⟩ }

/-- Fixture: canonical WAL bytes of one `(WRITE, "a", nil)` record. -/
def walRecA : List Nat := marshalWALEntry 4096 [97]

/-- Fixture: a WAL file holding one full record and a truncated second one. -/
def walFileTruncated : List Nat := walRecA ++ [10] ++ walRecA.take 4

/-- Fixture: a builder fed two ascending entries and finalized. -/
def builtTwoEntryTable : Except String SSTable :=
  (((NewSSTable 2).Write [97] RecordKindWrite [1]).1.Write [98] RecordKindWrite [2]).1.Build []

/-- Fixture: a single-entry table whose bloom filter also accepts the key
`"a"` as a false positive. -/
def singleEntryTable : Except String SSTable :=
  ((NewSSTable 1).Write [98] RecordKindWrite [7]).1.Build [[97]]

/-- Fixture: a one-entry memtable chunk named `c0`. -/
def c0Chunk : Chunk :=
  ⟨"c0", .skiplist ⟨⟨none, [([97], ⟨RecordKindWrite, [1]⟩)], 1⟩,
    ⟨[⟨RecordKindWrite, [97], [1]⟩], false⟩, 1⟩, 1⟩

/-- Fixture: a tree with `c0` as the sole chunk of layer 0. -/
def mergeInputTree : LsmTree :=
  { NewLsmTree "root" with
      layers := [⟨"layer-0", 4, [c0Chunk]⟩, ⟨"layer-1", 8, []⟩,
                 ⟨"layer-2", 4, []⟩, ⟨"layer-3", 0, []⟩] }

/-- Fixture: the spec's merging-iterator scenario (first input newer). -/
def mergeWitnessInputs : List (List Entry) :=
  [[⟨[97], RecordKindWrite, [1]⟩, ⟨[99], RecordKindWrite, [3]⟩],
   [⟨[97], RecordKindWrite, [9]⟩, ⟨[98], RecordKindWrite, [2]⟩]]

/-- Fixture: a newest-input tombstone above an older write of the same key. -/
def tombWitnessInputs : List (List Entry) :=
  [[⟨[97], RecordKindDelete, [5]⟩], [⟨[97], RecordKindWrite, [9]⟩]]

/-- Unfolding of `keyLt` on two nonempty keys. -/
theorem keyLt_cons_iff (a b : Nat) (as bs : List Nat) :
    keyLt (a :: as) (b :: bs) = true ↔ (a < b ∨ (a = b ∧ keyLt as bs = true)) := by
  simp only [keyLt]
  by_cases h1 : a < b
  · simp [h1]
  · by_cases h2 : b < a
    · simp only [if_neg h1, if_pos h2]
      constructor
      · intro h; cases h
      · rintro (h | ⟨h, _⟩) <;> omega
    · have hab : a = b := by omega
      subst hab
      simp [h1, h2]

/-- No key is lexicographically below itself. -/
theorem keyLt_irrefl : ∀ a : Key, keyLt a a = false
  | [] => rfl
  | x :: as => by
    have ih := keyLt_irrefl as
    simp [keyLt, ih]

/-- Lexicographic order on keys is transitive. -/
theorem keyLt_trans : ∀ (a b c : Key), keyLt a b = true → keyLt b c = true → keyLt a c = true
  | [], [], _, h, _ => by cases h
  | [], _ :: _, [], _, h => by cases h
  | [], _ :: _, _ :: _, _, _ => rfl
  | _ :: _, [], _, h, _ => by cases h
  | _ :: _, _ :: _, [], _, h => by cases h
  | a :: as, b :: bs, c :: cs, h1, h2 => by
    rw [keyLt_cons_iff] at h1 h2 ⊢
    rcases h1 with h1 | ⟨rfl, h1⟩
    · rcases h2 with h2 | ⟨rfl, _⟩
      · exact Or.inl (Nat.lt_trans h1 h2)
      · exact Or.inl h1
    · rcases h2 with h2 | ⟨rfl, h2⟩
      · exact Or.inl h2
      · exact Or.inr ⟨rfl, keyLt_trans as bs cs h1 h2⟩

/-- Trichotomy of the lexicographic order. -/
theorem keyLt_total : ∀ a b : Key, keyLt a b = true ∨ a = b ∨ keyLt b a = true
  | [], [] => Or.inr (Or.inl rfl)
  | [], _ :: _ => Or.inl rfl
  | _ :: _, [] => Or.inr (Or.inr rfl)
  | a :: as, b :: bs => by
    rcases Nat.lt_trichotomy a b with h | h | h
    · exact Or.inl ((keyLt_cons_iff _ _ _ _).mpr (Or.inl h))
    · subst h
      rcases keyLt_total as bs with h | h | h
      · exact Or.inl ((keyLt_cons_iff _ _ _ _).mpr (Or.inr ⟨rfl, h⟩))
      · exact Or.inr (Or.inl (by rw [h]))
      · exact Or.inr (Or.inr ((keyLt_cons_iff _ _ _ _).mpr (Or.inr ⟨rfl, h⟩)))
    · exact Or.inr (Or.inr ((keyLt_cons_iff _ _ _ _).mpr (Or.inl h)))

/-- Asymmetry of the lexicographic order. -/
theorem keyLt_asymm {a b : Key} (h : keyLt a b = true) : keyLt b a = false := by
  cases hba : keyLt b a
  · rfl
  · have := keyLt_trans a b a h hba
    rw [keyLt_irrefl] at this
    cases this

/-- Strictly smaller keys are distinct. -/
theorem keyLt_ne {a b : Key} (h : keyLt a b = true) : a ≠ b := by
  rintro rfl
  rw [keyLt_irrefl] at h
  cases h

/-- A failed comparison means equality or the reverse comparison. -/
theorem keyLt_false_elim {a b : Key} (h : keyLt a b = false) : a = b ∨ keyLt b a = true := by
  rcases keyLt_total a b with h' | h' | h'
  · rw [h'] at h; cases h
  · exact Or.inl h'
  · exact Or.inr h'

/-- From `a ≤ b` and `b < c` conclude `a < c` (in `keyLt` form). -/
theorem keyLt_of_le_of_lt {a b c : Key} (hba : keyLt b a = false) (hbc : keyLt b c = true) :
    keyLt a c = true := by
  rcases keyLt_false_elim hba with h | h
  · subst h; exact hbc
  · exact keyLt_trans a b c h hbc

/-- From `a < b` and `b ≤ c` conclude `a < c` (in `keyLt` form). -/
theorem keyLt_of_lt_of_le {a b c : Key} (hab : keyLt a b = true) (hcb : keyLt c b = false) :
    keyLt a c = true := by
  rcases keyLt_false_elim hcb with h | h
  · subst h; exact hab
  · exact keyLt_trans a b c hab h

/-- Transitivity of `≤` in `keyLt` form. -/
theorem keyLe_trans {a b c : Key} (hba : keyLt b a = false) (hcb : keyLt c b = false) :
    keyLt c a = false := by
  cases hca : keyLt c a
  · rfl
  · have := keyLt_of_lt_of_le hca hba
    rw [hcb] at this
    cases this

/-- The empty key is the least key. -/
theorem keyLt_nil (a : Key) : keyLt a [] = false := by
  cases a <;> rfl

/-- Full characterisation of `getMin`'s accumulator loop: the result is the
accumulator or points at an actual head entry; it is no larger than the
accumulator's key and strictly smaller whenever it differs from it; and it is
a lower bound of every head entry, strictly below every head entry at an
earlier index (the loop replaces the accumulator only on strict decrease, so
the first index attaining the minimum wins). -/
theorem getMinAux_spec (rest : List (Option Entry)) :
    ∀ (i : Nat) (acc : Option (Nat × Key)) (m : Nat) (mk : Key),
    (∀ m0 mk0, acc = some (m0, mk0) → m0 < i) →
    getMinAux rest i acc = some (m, mk) →
    ((acc = some (m, mk)) ∨ ∃ j e, rest[j]? = some (some e) ∧ m = i + j ∧ mk = e.key)
    ∧ (∀ m0 mk0, acc = some (m0, mk0) →
        keyLt mk0 mk = false ∧ (¬ (m = m0 ∧ mk = mk0) → keyLt mk mk0 = true))
    ∧ (∀ j e', rest[j]? = some (some e') →
        keyLt e'.key mk = false ∧ (i + j < m → keyLt mk e'.key = true)) := by
  induction rest with
  | nil =>
    intro i acc m mk _ h
    simp only [getMinAux] at h
    subst h
    refine ⟨Or.inl rfl, ?_, ?_⟩
    · intro m0 mk0 hacc
      injection hacc with hacc
      injection hacc with h1 h2
      subst h1; subst h2
      exact ⟨keyLt_irrefl mk, fun hne => absurd ⟨rfl, rfl⟩ hne⟩
    · intro j e' hj
      simp at hj
  | cons o rest ih =>
    intro i acc m mk hAcc h
    rcases o with _ | e
    · simp only [getMinAux] at h
      have hAcc' : ∀ m0 mk0, acc = some (m0, mk0) → m0 < i + 1 := by
        intro m0 mk0 h0; exact Nat.lt_succ_of_lt (hAcc m0 mk0 h0)
      obtain ⟨ih1, ih2, ih3⟩ := ih (i + 1) acc m mk hAcc' h
      refine ⟨?_, ih2, ?_⟩
      · rcases ih1 with h1 | ⟨j, e₁, hj, hm, hk⟩
        · exact Or.inl h1
        · exact Or.inr ⟨j + 1, e₁, by simpa using hj, by omega, hk⟩
      · intro j e' hj
        match j, hj with
        | 0, hj => simp at hj
        | j + 1, hj =>
          have := ih3 j e' (by simpa using hj)
          exact ⟨this.1, fun hlt => this.2 (by omega)⟩
    · rcases acc with _ | ⟨m0, mk0⟩
      · simp only [getMinAux] at h
        have hAcc' : ∀ m0 mk0, some (i, e.key) = some (m0, mk0) → m0 < i + 1 := by
          intro m0 mk0 h0
          injection h0 with h0
          injection h0 with h1 _
          omega
        obtain ⟨ih1, ih2, ih3⟩ := ih (i + 1) (some (i, e.key)) m mk hAcc' h
        have hA := ih2 i e.key rfl
        refine ⟨?_, ?_, ?_⟩
        · rcases ih1 with h1 | ⟨j, e₁, hj, hm, hk⟩
          · injection h1 with h1
            injection h1 with h1 h2
            exact Or.inr ⟨0, e, by simp, by omega, h2.symm⟩
          · exact Or.inr ⟨j + 1, e₁, by simpa using hj, by omega, hk⟩
        · intro m0' mk0' h0; cases h0
        · intro j e' hj
          match j, hj with
          | 0, hj =>
            have he : e = e' := by simpa using hj
            subst he
            refine ⟨hA.1, fun hlt => hA.2 ?_⟩
            rintro ⟨h1, _⟩
            omega
          | j + 1, hj =>
            have := ih3 j e' (by simpa using hj)
            exact ⟨this.1, fun hlt => this.2 (by omega)⟩
      · simp only [getMinAux] at h
        have hm0i : m0 < i := hAcc m0 mk0 rfl
        cases hcmp : keyLt e.key mk0 with
        | true =>
          rw [hcmp] at h
          simp only [if_true] at h
          have hAcc' : ∀ m0' mk0', some (i, e.key) = some (m0', mk0') → m0' < i + 1 := by
            intro m0' mk0' h0
            injection h0 with h0
            injection h0 with h1 _
            omega
          obtain ⟨ih1, ih2, ih3⟩ := ih (i + 1) (some (i, e.key)) m mk hAcc' h
          have hA := ih2 i e.key rfl
          have hlt0 : keyLt mk mk0 = true := by
            rcases keyLt_false_elim hA.1 with hEq | hLt
            · rw [← hEq]; exact hcmp
            · exact keyLt_trans mk e.key mk0 hLt hcmp
          refine ⟨?_, ?_, ?_⟩
          · rcases ih1 with h1 | ⟨j, e₁, hj, hm, hk⟩
            · injection h1 with h1
              injection h1 with h1 h2
              exact Or.inr ⟨0, e, by simp, by omega, h2.symm⟩
            · exact Or.inr ⟨j + 1, e₁, by simpa using hj, by omega, hk⟩
          · intro m0' mk0' h0
            injection h0 with h0
            injection h0 with h1 h2
            subst h1; subst h2
            exact ⟨keyLt_asymm hlt0, fun _ => hlt0⟩
          · intro j e' hj
            match j, hj with
            | 0, hj =>
              have he : e = e' := by simpa using hj
              subst he
              refine ⟨hA.1, fun hlt => hA.2 ?_⟩
              rintro ⟨h1, _⟩
              omega
            | j + 1, hj =>
              have := ih3 j e' (by simpa using hj)
              exact ⟨this.1, fun hlt => this.2 (by omega)⟩
        | false =>
          rw [hcmp] at h
          simp only [Bool.false_eq_true, if_false] at h
          have hAcc' : ∀ m0' mk0', some (m0, mk0) = some (m0', mk0') → m0' < i + 1 := by
            intro m0' mk0' h0
            injection h0 with h0
            injection h0 with h1 _
            omega
          obtain ⟨ih1, ih2, ih3⟩ := ih (i + 1) (some (m0, mk0)) m mk hAcc' h
          have hA := ih2 m0 mk0 rfl
          refine ⟨?_, ?_, ?_⟩
          · rcases ih1 with h1 | ⟨j, e₁, hj, hm, hk⟩
            · exact Or.inl h1
            · exact Or.inr ⟨j + 1, e₁, by simpa using hj, by omega, hk⟩
          · intro m0' mk0' h0
            injection h0 with h0
            injection h0 with h1 h2
            subst h1; subst h2
            exact hA
          · intro j e' hj
            match j, hj with
            | 0, hj =>
              have he : e = e' := by simpa using hj
              subst he
              refine ⟨keyLe_trans hA.1 hcmp, ?_⟩
              intro hlt
              have hne : ¬ (m = m0 ∧ mk = mk0) := by
                rintro ⟨h1, _⟩
                omega
              exact keyLt_of_lt_of_le (hA.2 hne) hcmp
            | j + 1, hj =>
              have := ih3 j e' (by simpa using hj)
              exact ⟨this.1, fun hlt => this.2 (by omega)⟩

/-- Membership from an indexed lookup. -/
theorem elemOfGetElem? {α : Type} {l : List α} {n : Nat} {a : α} (h : l[n]? = some a) :
    a ∈ l :=
  List.get?_mem (by rw [List.get?_eq_getElem?]; exact h)

/-- The accumulator loop never forgets a present accumulator. -/
theorem getMinAux_acc_some : ∀ (rest : List (Option Entry)) (i m : Nat) (mk : Key),
    getMinAux rest i (some (m, mk)) ≠ none := by
  intro rest
  induction rest with
  | nil => intro i m mk h; cases h
  | cons o rest ih =>
    intro i m mk h
    rcases o with _ | e
    · exact ih (i + 1) m mk h
    · simp only [getMinAux] at h
      cases hcmp : keyLt e.key mk <;> rw [hcmp] at h <;> simp only [Bool.false_eq_true, if_false, if_true] at h
      · exact ih (i + 1) m mk h
      · exact ih (i + 1) i e.key h

/-- When the loop reports no minimum, every slot was exhausted. -/
theorem getMinAux_none : ∀ (rest : List (Option Entry)) (i : Nat),
    getMinAux rest i none = none → ∀ x ∈ rest, x = none := by
  intro rest
  induction rest with
  | nil => intro i _ x hx; cases hx
  | cons o rest ih =>
    intro i h x hx
    rcases o with _ | e
    · rcases List.mem_cons.mp hx with rfl | hx'
      · rfl
      · exact ih (i + 1) h x hx'
    · simp only [getMinAux] at h
      exact absurd h (getMinAux_acc_some rest (i + 1) i e.key)

/-- A reported minimum points at an actual head entry carrying its key. -/
theorem getMinK_mem {es : List (Option Entry)} {m : Nat} {mk : Key}
    (h : getMinAux es 0 none = some (m, mk)) :
    ∃ e, es[m]? = some (some e) ∧ e.key = mk := by
  obtain ⟨h1, _, _⟩ := getMinAux_spec es 0 none m mk (by intro _ _ h0; cases h0) h
  rcases h1 with h1 | ⟨j, e, hj, hm, hk⟩
  · cases h1
  · exact ⟨e, by rwa [show m = j by omega], hk.symm⟩

/-- The reported minimum key is a lower bound of every present head entry. -/
theorem getMinK_le {es : List (Option Entry)} {m : Nat} {mk : Key}
    (h : getMinAux es 0 none = some (m, mk)) :
    ∀ (j : Nat) (e' : Entry), es[j]? = some (some e') → keyLt e'.key mk = false := by
  intro j e' hj
  obtain ⟨_, _, h3⟩ := getMinAux_spec es 0 none m mk (by intro _ _ h0; cases h0) h
  exact (h3 j e' hj).1

/-- Head entries strictly before the reported index are strictly larger. -/
theorem getMinK_first {es : List (Option Entry)} {m : Nat} {mk : Key}
    (h : getMinAux es 0 none = some (m, mk)) :
    ∀ (j : Nat) (e' : Entry), es[j]? = some (some e') → j < m → keyLt mk e'.key = true := by
  intro j e' hj hlt
  obtain ⟨_, _, h3⟩ := getMinAux_spec es 0 none m mk (by intro _ _ h0; cases h0) h
  exact (h3 j e' hj).2 (by omega)

/-- Strict ascent is inherited by the tail. -/
theorem ascE_tail {a : Entry} {l : List Entry} (h : ascE (a :: l) = true) : ascE l = true := by
  cases l with
  | nil => rfl
  | cons b rest => exact (Bool.and_eq_true_iff.mp h).2

/-- In a strictly ascending list the head key is strictly below every later key. -/
theorem ascE_head_lt {a : Entry} {l : List Entry} (h : ascE (a :: l) = true) :
    ∀ x ∈ l, keyLt a.key x.key = true := by
  induction l generalizing a with
  | nil => intro x hx; cases hx
  | cons b rest ih =>
    intro x hx
    have hab : keyLt a.key b.key = true := (Bool.and_eq_true_iff.mp h).1
    rcases List.mem_cons.mp hx with rfl | hx'
    · exact hab
    · exact keyLt_trans _ _ _ hab (ih (Bool.and_eq_true_iff.mp h).2 x hx')

/-- Non-decrease is inherited by the tail. -/
theorem nondecE_tail {a : Entry} {l : List Entry} (h : nondecE (a :: l) = true) :
    nondecE l = true := by
  cases l with
  | nil => rfl
  | cons b rest => exact (Bool.and_eq_true_iff.mp h).2

/-- In a non-decreasing list the head key bounds every later key from below. -/
theorem nondecE_head_lb {a : Entry} {l : List Entry} (h : nondecE (a :: l) = true) :
    lbE a.key l = true := by
  induction l generalizing a with
  | nil => rfl
  | cons b rest ih =>
    have hab : keyLt b.key a.key = false := by
      have := (Bool.and_eq_true_iff.mp h).1
      rwa [Bool.not_eq_true'] at this
    have hrest := ih (Bool.and_eq_true_iff.mp h).2
    rw [lbE, List.all_eq_true] at hrest ⊢
    intro x hx
    rcases List.mem_cons.mp hx with rfl | hx'
    · rw [Bool.not_eq_true', hab]
    · have := hrest x hx'
      rw [Bool.not_eq_true'] at this ⊢
      exact keyLe_trans hab this

/-- Unpacking a lower bound at a member. -/
theorem lbE_mem {p : Key} {l : List Entry} {x : Entry} (h : lbE p l = true) (hx : x ∈ l) :
    keyLt x.key p = false := by
  rw [lbE, List.all_eq_true] at h
  have := h x hx
  rwa [Bool.not_eq_true'] at this

/-- Strictly ascending lists have pairwise distinct keys. -/
theorem ascE_noDup : ∀ {l : List Entry}, ascE l = true → noDupKeysE l = true := by
  intro l
  induction l with
  | nil => intro _; rfl
  | cons a rest ih =>
    intro h
    rw [noDupKeysE, Bool.and_eq_true, List.all_eq_true]
    refine ⟨?_, ih (ascE_tail h)⟩
    intro b hb
    have := keyLt_ne (ascE_head_lt h b hb)
    simp [this]

/-- Popping a nonempty slot strictly decreases the total entry count. -/
theorem totalLen_set_lt : ∀ (its : List (List Entry)) (m : Nat) (e : Entry) (t : List Entry),
    its[m]? = some (e :: t) → totalLen (its.set m t) < totalLen its := by
  intro its
  induction its with
  | nil => intro m e t h; cases h
  | cons l rest ih =>
    intro m e t h
    match m with
    | 0 =>
      have hl : l = e :: t := by simpa using h
      subst hl
      simp [totalLen]
    | m + 1 =>
      have h' : rest[m]? = some (e :: t) := by simpa using h
      have := ih m e t h'
      simp only [List.set, totalLen, List.map_cons, List.sum_cons] at this ⊢
      omega

/-- A `findSome?` over a list with no hits is `none`. -/
theorem findSome?_eq_none_of {α β : Type} (f : α → Option β) :
    ∀ (its : List α), (∀ l ∈ its, f l = none) → its.findSome? f = none := by
  intro its
  induction its with
  | nil => intro _; rfl
  | cons a rest ih =>
    intro h
    rw [List.findSome?_cons, h a (List.mem_cons_self a rest), ih]
    intro l hl
    exact h l (List.mem_cons_of_mem a hl)

/-- `findSome?` returns the hit at index `m` when every earlier index misses. -/
theorem findSome?_of_getElem {α β : Type} (f : α → Option β) :
    ∀ (its : List α) (m : Nat) (l : α) (b : β),
    its[m]? = some l → f l = some b →
    (∀ (j : Nat) (l' : α), j < m → its[j]? = some l' → f l' = none) →
    its.findSome? f = some b := by
  intro its
  induction its with
  | nil => intro m l b h; cases h
  | cons a rest ih =>
    intro m l b hm hf hbefore
    match m with
    | 0 =>
      have hl : a = l := by simpa using hm
      subst hl
      rw [List.findSome?_cons, hf]
    | m + 1 =>
      have ha : f a = none := hbefore 0 a (by omega) (by simp)
      rw [List.findSome?_cons, ha]
      refine ih m l b (by simpa using hm) hf ?_
      intro j l' hj hl'
      exact hbefore (j + 1) l' (by omega) (by simpa using hl')

/-- Replacing one element by another with the same `f`-value leaves
`findSome?` unchanged. -/
theorem findSome?_set_congr {α β : Type} (f : α → Option β) :
    ∀ (its : List α) (m : Nat) (l t : α),
    its[m]? = some l → f l = f t → (its.set m t).findSome? f = its.findSome? f := by
  intro its
  induction its with
  | nil => intro m l t h; cases h
  | cons a rest ih =>
    intro m l t hm hf
    match m with
    | 0 =>
      have hl : a = l := by simpa using hm
      subst hl
      simp only [List.set]
      rw [List.findSome?_cons, List.findSome?_cons, hf]
    | m + 1 =>
      simp only [List.set]
      rw [List.findSome?_cons, List.findSome?_cons, ih m l t (by simpa using hm) hf]

/-- Every entry emitted by the merge loop comes from one of the inputs. -/
theorem getEntriesAux_mem : ∀ (fuel : Nat) (its : List (List Entry)) (x : Entry),
    x ∈ getEntriesAux fuel its → ∃ l ∈ its, x ∈ l := by
  intro fuel
  induction fuel with
  | zero => intro its x h; cases h
  | succ fuel ih =>
    intro its x h
    simp only [getEntriesAux] at h
    split at h
    · cases h
    · rename_i m hmin
      split at h
      · rename_i e t hget
        rcases List.mem_cons.mp h with hx | h'
        · exact ⟨e :: t, elemOfGetElem? hget, by rw [hx]; exact List.mem_cons_self _ _⟩
        · obtain ⟨l, hl, hx⟩ := ih (its.set m t) x h'
          rcases List.mem_or_eq_of_mem_set hl with hl' | hl'
          · exact ⟨l, hl', hx⟩
          · exact ⟨e :: t, elemOfGetElem? hget, List.mem_cons_of_mem _ (hl' ▸ hx)⟩
      · cases h
      · cases h

/-- A member list's length bounds the total from below. -/
theorem length_le_totalLen {l : List Entry} {its : List (List Entry)} (h : l ∈ its) :
    l.length ≤ totalLen its := by
  induction its with
  | nil => cases h
  | cons a rest ih =>
    simp only [totalLen, List.map_cons, List.sum_cons]
    rcases List.mem_cons.mp h with h1 | h1
    · rw [h1]; exact Nat.le_add_right _ _
    · have := ih h1
      simp only [totalLen] at this
      omega

/-- With a zero total, every input list is empty. -/
theorem allEmpty_of_totalLen_zero {its : List (List Entry)} (h : totalLen its = 0) :
    ∀ l ∈ its, l = [] := by
  intro l hl
  have := length_le_totalLen hl
  rw [h] at this
  exact List.length_eq_zero.mp (by omega)

/-- When the minimum scan comes back empty, every input list is empty. -/
theorem allEmpty_of_getMin_none {its : List (List Entry)}
    (h : getMinAux (its.map List.head?) 0 none = none) : ∀ l ∈ its, l = [] := by
  intro l hl
  have := getMinAux_none _ 0 h l.head? (List.mem_map_of_mem _ hl)
  exact List.head?_eq_none_iff.mp this

/-- A reported minimum index holds a nonempty list. -/
theorem getMin_some_nonempty {its : List (List Entry)} {m : Nat}
    (hmin : getMin (its.map List.head?) = some m) :
    ∃ e t, its[m]? = some (e :: t) := by
  rcases hK : getMinAux (its.map List.head?) 0 none with _ | ⟨m', mk⟩
  · rw [getMin, hK] at hmin; cases hmin
  · rw [getMin, hK] at hmin
    have hm : m' = m := by simpa using hmin
    subst hm
    obtain ⟨e₀, hj, _⟩ := getMinK_mem hK
    rw [List.getElem?_map] at hj
    rcases hg : its[m']? with _ | l
    · rw [hg] at hj; cases hj
    · rw [hg] at hj
      rcases l with _ | ⟨hd, tl⟩
      · simp at hj
      · exact ⟨hd, tl, rfl⟩

/-- The reported minimum key is the popped head's key. -/
theorem minKey_of_split {its : List (List Entry)} {m : Nat} {e : Entry} {t : List Entry}
    (hmin : getMin (its.map List.head?) = some m)
    (hget : its[m]? = some (e :: t)) :
    getMinAux (its.map List.head?) 0 none = some (m, e.key) := by
  rcases hK : getMinAux (its.map List.head?) 0 none with _ | ⟨m', mk⟩
  · rw [getMin, hK] at hmin; cases hmin
  · rw [getMin, hK] at hmin
    have hm : m' = m := by simpa using hmin
    subst hm
    obtain ⟨e₀, hj, hk⟩ := getMinK_mem hK
    rw [List.getElem?_map, hget] at hj
    have he : e = e₀ := by simpa using hj
    rw [← hk, ← he]

/-- After popping the minimum, its key bounds every remaining entry below. -/
theorem minPop_lb {its : List (List Entry)} {m : Nat} {e : Entry} {t : List Entry}
    (hall : ∀ l ∈ its, ascE l = true)
    (hK : getMinAux (its.map List.head?) 0 none = some (m, e.key))
    (hget : its[m]? = some (e :: t)) :
    ∀ l ∈ its.set m t, ∀ x ∈ l, keyLt x.key e.key = false := by
  intro l hl x hx
  rcases List.mem_or_eq_of_mem_set hl with hl' | hl'
  · rcases l with _ | ⟨hd, tl⟩
    · cases hx
    · obtain ⟨j, hj⟩ := List.mem_iff_get?.mp hl'
      rw [List.get?_eq_getElem?] at hj
      have hhead : (its.map List.head?)[j]? = some (some hd) := by
        rw [List.getElem?_map, hj]; rfl
      have hle := getMinK_le hK j hd hhead
      rcases List.mem_cons.mp hx with hx' | hx'
      · rw [hx']; exact hle
      · exact keyLe_trans hle (keyLt_asymm (ascE_head_lt (hall _ hl') x hx'))
  · subst hl'
    exact keyLt_asymm (ascE_head_lt (hall _ (elemOfGetElem? hget)) x hx)

/-- Popping a head preserves strict ascent of every input list. -/
theorem setPop_all_ascE {its : List (List Entry)} {m : Nat} {e : Entry} {t : List Entry}
    (hall : ∀ l ∈ its, ascE l = true) (hget : its[m]? = some (e :: t)) :
    ∀ l ∈ its.set m t, ascE l = true := by
  intro l hl
  rcases List.mem_or_eq_of_mem_set hl with hl' | hl'
  · exact hall l hl'
  · subst hl'
    exact ascE_tail (hall _ (elemOfGetElem? hget))

/-- Every input entry is emitted by the merge loop (given enough fuel). -/
theorem getEntriesAux_complete : ∀ (fuel : Nat) (its : List (List Entry)),
    totalLen its ≤ fuel → ∀ l ∈ its, ∀ x ∈ l, x ∈ getEntriesAux fuel its := by
  intro fuel
  induction fuel with
  | zero =>
    intro its htot l hl x hx
    have := allEmpty_of_totalLen_zero (by omega) l hl
    subst this
    cases hx
  | succ fuel ih =>
    intro its htot l hl x hx
    simp only [getEntriesAux]
    split
    · rename_i hmin
      exfalso
      have hK : getMinAux (its.map List.head?) 0 none = none :=
        Option.map_eq_none'.mp hmin
      have := allEmpty_of_getMin_none hK l hl
      subst this
      cases hx
    · rename_i m hmin
      split
      · rename_i e t hget
        obtain ⟨j, hj⟩ := List.mem_iff_get?.mp hl
        rw [List.get?_eq_getElem?] at hj
        have htot' : totalLen (its.set m t) ≤ fuel := by
          have := totalLen_set_lt its m e t hget; omega
        by_cases hjm : j = m
        · subst hjm
          rw [hget] at hj
          have hl2 : e :: t = l := by simpa using hj
          subst hl2
          rcases List.mem_cons.mp hx with hx' | hx'
          · rw [hx']; exact List.mem_cons_self _ _
          · refine List.mem_cons_of_mem _ (ih (its.set j t) htot' t ?_ x hx')
            have hjlen : j < its.length := by
              rcases List.getElem?_eq_some.mp hget with ⟨hlt, _⟩
              exact hlt
            exact elemOfGetElem? (List.getElem?_set_self hjlen)
        · refine List.mem_cons_of_mem _ (ih (its.set m t) htot' l ?_ x hx)
          have hset : (its.set m t)[j]? = some l := by
            rw [List.getElem?_set_ne (by omega)]
            exact hj
          exact elemOfGetElem? hset
      · rename_i hget
        exfalso
        obtain ⟨e', t', hg⟩ := getMin_some_nonempty hmin
        rw [hget] at hg
        cases hg
      · rename_i hget
        exfalso
        obtain ⟨e', t', hg⟩ := getMin_some_nonempty hmin
        rw [hget] at hg
        cases hg

/-- The merged stream is non-decreasing when every input ascends strictly. -/
theorem getEntriesAux_nondec : ∀ (fuel : Nat) (its : List (List Entry)),
    totalLen its ≤ fuel → (∀ l ∈ its, ascE l = true) →
    nondecE (getEntriesAux fuel its) = true := by
  intro fuel
  induction fuel with
  | zero => intro its _ _; rfl
  | succ fuel ih =>
    intro its htot hall
    simp only [getEntriesAux]
    split
    · rfl
    · rename_i m hmin
      split
      · rename_i e t hget
        have hK := minKey_of_split hmin hget
        have hlb := minPop_lb hall hK hget
        have htot' : totalLen (its.set m t) ≤ fuel := by
          have := totalLen_set_lt its m e t hget; omega
        have hrec := ih (its.set m t) htot' (setPop_all_ascE hall hget)
        rcases hr : getEntriesAux fuel (its.set m t) with _ | ⟨r, rec⟩
        · rfl
        · have hrmem : r ∈ getEntriesAux fuel (its.set m t) := by
            rw [hr]; exact List.mem_cons_self _ _
          obtain ⟨l, hl, hrl⟩ := getEntriesAux_mem fuel (its.set m t) r hrmem
          have h1 : keyLt r.key e.key = false := hlb l hl r hrl
          rw [hr] at hrec
          rw [nondecE, Bool.and_eq_true, Bool.not_eq_true', h1]
          exact ⟨rfl, hrec⟩
      · rfl
      · rfl

/-- The first merged entry with a given key is the hit of the first input
containing that key: `find?` over the merged stream agrees with `findSome?`
of the per-input `find?`s. -/
theorem getEntriesAux_find : ∀ (fuel : Nat) (its : List (List Entry)) (k : Key),
    totalLen its ≤ fuel → (∀ l ∈ its, ascE l = true) →
    (getEntriesAux fuel its).find? (fun x => x.key == k) =
      its.findSome? fun l => l.find? (fun x => x.key == k) := by
  intro fuel
  induction fuel with
  | zero =>
    intro its k htot hall
    have hempty : ∀ l ∈ its, l = [] := allEmpty_of_totalLen_zero (by omega)
    rw [show getEntriesAux 0 its = [] from rfl, List.find?_nil]
    refine (findSome?_eq_none_of _ its ?_).symm
    intro l hl
    rw [hempty l hl, List.find?_nil]
  | succ fuel ih =>
    intro its k htot hall
    simp only [getEntriesAux]
    split
    · rename_i hmin
      have hempty := allEmpty_of_getMin_none (Option.map_eq_none'.mp hmin)
      rw [List.find?_nil]
      refine (findSome?_eq_none_of _ its ?_).symm
      intro l hl
      rw [hempty l hl, List.find?_nil]
    · rename_i m hmin
      split
      · rename_i e t hget
        have hK := minKey_of_split hmin hget
        have htot' : totalLen (its.set m t) ≤ fuel := by
          have := totalLen_set_lt its m e t hget; omega
        by_cases hek : e.key = k
        · have hpe : (fun x => x.key == k) e = true := by simp [hek]
          have hstep : List.find? (fun x => x.key == k)
              (e :: getEntriesAux fuel (its.set m t)) = some e :=
            List.find?_cons_of_pos _ hpe
          rw [hstep]
          refine (findSome?_of_getElem _ its m (e :: t) e hget
            (List.find?_cons_of_pos _ hpe) ?_).symm
          intro j l' hj hl'
          rcases l' with _ | ⟨hd, tl⟩
          · exact List.find?_nil
          · rw [List.find?_eq_none]
            intro x hx
            have hhead : (its.map List.head?)[j]? = some (some hd) := by
              rw [List.getElem?_map, hl']; rfl
            have h1 : keyLt e.key hd.key = true := getMinK_first hK j hd hhead hj
            have h2 : keyLt k x.key = true := by
              rcases List.mem_cons.mp hx with hx' | hx'
              · rw [hx', ← hek]; exact h1
              · exact keyLt_trans _ _ _ (hek ▸ h1)
                  (ascE_head_lt (hall _ (elemOfGetElem? hl')) x hx')
            have h3 := keyLt_ne h2
            simp only [beq_iff_eq]
            intro hcon
            exact h3 (by rw [hcon])
        · have hpe : ¬ (fun x => x.key == k) e = true := by simp [hek]
          have hstep : List.find? (fun x => x.key == k)
              (e :: getEntriesAux fuel (its.set m t)) =
              List.find? (fun x => x.key == k) (getEntriesAux fuel (its.set m t)) :=
            List.find?_cons_of_neg _ hpe
          rw [hstep]
          rw [ih (its.set m t) k htot' (setPop_all_ascE hall hget)]
          exact findSome?_set_congr _ its m (e :: t) t hget
            (List.find?_cons_of_neg _ hpe)
      · rename_i hget
        exfalso
        obtain ⟨e', t', hg⟩ := getMin_some_nonempty hmin
        rw [hget] at hg
        cases hg
      · rename_i hget
        exfalso
        obtain ⟨e', t', hg⟩ := getMin_some_nonempty hmin
        rw [hget] at hg
        cases hg

/-- Every entry the deduplication loop keeps has key strictly above the
previous key, given a sorted stream bounded below by it. -/
theorem loop_keys_gt : ∀ (l : List Entry) (p : Key), nondecE l = true → lbE p l = true →
    ∀ y ∈ parallellMergeLoop p l, keyLt p y.key = true := by
  intro l
  induction l with
  | nil => intro p _ _ y hy; cases hy
  | cons e rest ih =>
    intro p hnd hlb y hy
    have hlbrest : lbE e.key rest = true := nondecE_head_lb hnd
    have hndrest : nondecE rest = true := nondecE_tail hnd
    have hep : keyLt e.key p = false := lbE_mem hlb (List.mem_cons_self _ _)
    simp only [parallellMergeLoop] at hy
    by_cases heq : e.key = p
    · rw [if_pos heq] at hy
      have := ih e.key hndrest hlbrest y hy
      rw [heq] at this
      exact this
    · rw [if_neg heq] at hy
      rcases List.mem_cons.mp hy with hy' | hy'
      · rw [hy']
        simp only [reKindW]
        rcases keyLt_false_elim hep with h | h
        · exact absurd h heq
        · exact h
      · exact keyLt_of_le_of_lt hep (ih e.key hndrest hlbrest y hy')

/-- The deduplication loop's output is strictly ascending. -/
theorem loop_asc : ∀ (l : List Entry) (p : Key), nondecE l = true → lbE p l = true →
    ascE (parallellMergeLoop p l) = true := by
  intro l
  induction l with
  | nil => intro p _ _; rfl
  | cons e rest ih =>
    intro p hnd hlb
    simp only [parallellMergeLoop]
    by_cases heq : e.key = p
    · rw [if_pos heq]
      exact ih e.key (nondecE_tail hnd) (nondecE_head_lb hnd)
    · rw [if_neg heq]
      have hrec := ih e.key (nondecE_tail hnd) (nondecE_head_lb hnd)
      rcases hr : parallellMergeLoop e.key rest with _ | ⟨y, ys⟩
      · rfl
      · have hymem : y ∈ parallellMergeLoop e.key rest := by
          rw [hr]; exact List.mem_cons_self _ _
        have hky := loop_keys_gt rest e.key (nondecE_tail hnd) (nondecE_head_lb hnd) y hymem
        rw [hr] at hrec
        simp only [ascE, reKindW, Bool.and_eq_true]
        exact ⟨hky, hrec⟩

/-- Every kept entry is the re-kinded first occurrence of its key in the
sorted stream the loop consumed. -/
theorem loop_first_occurrence : ∀ (l : List Entry) (p : Key), nondecE l = true →
    lbE p l = true → ∀ y ∈ parallellMergeLoop p l,
    ∃ e, l.find? (fun x => x.key == y.key) = some e ∧ y = reKindW e := by
  intro l
  induction l with
  | nil => intro p _ _ y hy; cases hy
  | cons e rest ih =>
    intro p hnd hlb y hy
    have hndrest : nondecE rest = true := nondecE_tail hnd
    have hlbrest : lbE e.key rest = true := nondecE_head_lb hnd
    simp only [parallellMergeLoop] at hy
    by_cases heq : e.key = p
    · rw [if_pos heq] at hy
      obtain ⟨e', hfind, hre⟩ := ih e.key hndrest hlbrest y hy
      have hkg := loop_keys_gt rest e.key hndrest hlbrest y hy
      have hne : ¬ (fun x => x.key == y.key) e = true := by
        simp only [beq_iff_eq]
        exact keyLt_ne hkg
      refine ⟨e', ?_, hre⟩
      have hstep : List.find? (fun x => x.key == y.key) (e :: rest) =
          List.find? (fun x => x.key == y.key) rest := List.find?_cons_of_neg _ hne
      rw [hstep]
      exact hfind
    · rw [if_neg heq] at hy
      rcases List.mem_cons.mp hy with hy' | hy'
      · refine ⟨e, ?_, hy'⟩
        have hpe : (fun x => x.key == y.key) e = true := by
          rw [hy']; simp [reKindW]
        exact List.find?_cons_of_pos _ hpe
      · obtain ⟨e', hfind, hre⟩ := ih e.key hndrest hlbrest y hy'
        have hkg := loop_keys_gt rest e.key hndrest hlbrest y hy'
        have hne : ¬ (fun x => x.key == y.key) e = true := by
          simp only [beq_iff_eq]
          exact keyLt_ne hkg
        refine ⟨e', ?_, hre⟩
        have hstep : List.find? (fun x => x.key == y.key) (e :: rest) =
            List.find? (fun x => x.key == y.key) rest := List.find?_cons_of_neg _ hne
        rw [hstep]
        exact hfind

/-- Every consumed key other than the previous key survives deduplication. -/
theorem loop_emits_key : ∀ (l : List Entry) (p : Key), nondecE l = true → lbE p l = true →
    ∀ x ∈ l, x.key ≠ p → ∃ y ∈ parallellMergeLoop p l, y.key = x.key := by
  intro l
  induction l with
  | nil => intro p _ _ x hx; cases hx
  | cons e rest ih =>
    intro p hnd hlb x hx hxp
    have hndrest : nondecE rest = true := nondecE_tail hnd
    have hlbrest : lbE e.key rest = true := nondecE_head_lb hnd
    simp only [parallellMergeLoop]
    by_cases heq : e.key = p
    · rw [if_pos heq]
      rcases List.mem_cons.mp hx with hx' | hx'
      · exact absurd (by rw [hx', heq]) hxp
      · exact ih e.key hndrest hlbrest x hx' (by rw [heq]; exact hxp)
    · rw [if_neg heq]
      rcases List.mem_cons.mp hx with hx' | hx'
      · exact ⟨reKindW e, List.mem_cons_self _ _, by rw [hx']; rfl⟩
      · by_cases hxe : x.key = e.key
        · exact ⟨reKindW e, List.mem_cons_self _ _, hxe.symm⟩
        · obtain ⟨y, hy, hyk⟩ := ih e.key hndrest hlbrest x hx' hxe
          exact ⟨y, List.mem_cons_of_mem _ hy, hyk⟩

/-- The empty previous key bounds every stream from below. -/
theorem lbE_nil_bound (l : List Entry) : lbE [] l = true := by
  rw [lbE, List.all_eq_true]
  intro x _
  rw [Bool.not_eq_true', keyLt_nil]

/-- The merged stream of strictly ascending inputs is non-decreasing. -/
theorem getEntries_nondec {its : List (List Entry)} (hall : ∀ l ∈ its, ascE l = true) :
    nondecE (getEntries its) = true :=
  getEntriesAux_nondec _ its (Nat.le_succ _) hall

/-- `find?` over the merged stream is the first per-input hit. -/
theorem getEntries_find {its : List (List Entry)} (k : Key)
    (hall : ∀ l ∈ its, ascE l = true) :
    (getEntries its).find? (fun x => x.key == k) =
      its.findSome? fun l => l.find? (fun x => x.key == k) :=
  getEntriesAux_find _ its k (Nat.le_succ _) hall

/-- Every input entry appears in the merged stream. -/
theorem getEntries_complete {its : List (List Entry)} {l : List Entry} {x : Entry}
    (hl : l ∈ its) (hx : x ∈ l) : x ∈ getEntries its :=
  getEntriesAux_complete _ its (Nat.le_succ _) l hl x hx

/-- The write stream `parallellMerge` feeds the builder is strictly
ascending when every input iterator is. -/
theorem parallellMerge_asc {its : List (List Entry)} (hall : ∀ l ∈ its, ascE l = true) :
    ascE (parallellMerge its) = true :=
  loop_asc _ [] (getEntries_nondec hall) (lbE_nil_bound _)

/-- Every written entry originates from the first input containing its key:
same key and value bytes, with the kind rewritten to `RecordKindWrite`. -/
theorem parallellMerge_src {its : List (List Entry)} (hall : ∀ l ∈ its, ascE l = true) :
    ∀ e ∈ parallellMerge its,
    ∃ src, (its.findSome? fun l => l.find? (fun x => x.key == e.key)) = some src
      ∧ src.key = e.key ∧ src.data = e.data ∧ e.kind = RecordKindWrite := by
  intro e he
  obtain ⟨src, hfind, hre⟩ :=
    loop_first_occurrence _ [] (getEntries_nondec hall) (lbE_nil_bound _) e he
  rw [getEntries_find e.key hall] at hfind
  refine ⟨src, hfind, ?_, ?_, ?_⟩
  · rw [hre]; rfl
  · rw [hre]; rfl
  · rw [hre]; rfl

/-- Every input key other than the empty string is represented in the write
stream. -/
theorem parallellMerge_covers {its : List (List Entry)} {l : List Entry} {x : Entry}
    (hall : ∀ l ∈ its, ascE l = true) (hl : l ∈ its) (hx : x ∈ l) (hxk : x.key ≠ []) :
    ∃ y ∈ parallellMerge its, y.key = x.key :=
  loop_emits_key _ [] (getEntries_nondec hall) (lbE_nil_bound _) x
    (getEntries_complete hl hx) hxk

/-- C2: the skiplist insert contract fails.  Inserting the key `"a"` twice
leaves `Get "a"` returning the first value (the matched node is never
updated; `Insert` writes the predecessor's value slot — here the head
sentinel's — instead), and the second `Insert` returns `none` rather than the
previous value. -/
theorem skiplist_insert_overwrite_updates_predecessor :
    ((((NewSkipList SkiplistEntry).Insert [97]
        ⟨RecordKindWrite, [1]⟩).2.Insert [97] ⟨RecordKindWrite, [2]⟩).2.Get [97] =
      some ⟨RecordKindWrite, [1]⟩)
    ∧ (((NewSkipList SkiplistEntry).Insert [97]
        ⟨RecordKindWrite, [1]⟩).2.Insert [97] ⟨RecordKindWrite, [2]⟩).1 = none
    ∧ (((NewSkipList SkiplistEntry).Insert [97]
        ⟨RecordKindWrite, [1]⟩).2.Insert [97] ⟨RecordKindWrite, [2]⟩).2.headValue =
      some ⟨RecordKindWrite, [2]⟩ := by
  decide

/-- C1: read-your-writes fails at the LSM public interface once a key is set
twice with no rotation in between: after `Set "a" [1]` and `Set "a" [2]`,
`Get "a"` returns `[1]` — the first value, not the last — because the
skiplist overwrite never reaches the matched node. -/
theorem lsm_set_set_get_returns_stale :
    (((NewLsmTree "root").Set [97] [1] "n1").1.Set [97] [2] "n2").1.Get [97] =
      LsmGetResult.ok [1] true
    ∧ LsmGetResult.ok [1] true ≠ LsmGetResult.ok [2] true := by
  decide

/-- C3: the builder/loader round-trip fails for two entries.  The table built
from `("a", WRITE, [1])` and `("b", WRITE, [2])` records both entries
(`numEntries = 2`), but its iterator yields only the first: `Next` advances
`nextIndexOffset` by `8 + keyLen + 8` while an index record occupies
`24 + keyLen` bytes, so the second call decodes the first record's data
offset as a kind and a kind field as a key length, and dies in a short read. -/
theorem sstable_iterator_drops_second_entry :
    builtTwoEntryTable.toOption.map
        (fun t => (t.numEntries, t.iterEntries)) =
      some (2, [⟨[97], RecordKindWrite, [1]⟩]) := by
  decide

/-- C4: after `mergeLayer 0`, the source layer still holds its chunk.  The Go
code copies the layer struct by value, so `l.chunks = nil` clears only the
copy; the merged SSTable is prepended to the target layer and the source
chunks' on-disk artifacts are deleted even though the tree (and the saved
manifest) still reference them. -/
theorem mergeLayer_source_layer_not_cleared :
    exceptIsOk (mergeInputTree.mergeLayer 0 "layer-1-x").result = true
    ∧ (mergeInputTree.mergeLayer 0 "layer-1-x").tree.layers.map
        (fun l => l.chunks.map fun c => c.name) = [["c0"], ["layer-1-x"], [], []]
    ∧ (mergeInputTree.mergeLayer 0 "layer-1-x").deletedChunks = ["c0"] := by
  decide

/-- C5 counterexample: a DELETE tombstone that is the newest (and only)
record for its key is written to the merged SSTable as a `RecordKindWrite`
record — no emitted entry keeps the DELETE kind. -/
theorem parallellMerge_tombstone_kind_cex :
    parallellMerge [[⟨[97], RecordKindDelete, [5]⟩]] = [⟨[97], RecordKindWrite, [5]⟩]
    ∧ ∀ e ∈ parallellMerge [[⟨[97], RecordKindDelete, [5]⟩]],
        e.kind ≠ RecordKindDelete := by
  decide

/-- C7: `LoadWAL` does not discard a truncated trailing record — it fails.
On a file holding one fully formed record followed by a truncated one, the
trailing chunk is a malformed envelope, its unmarshal error aborts the load
and the fully formed record is not returned; without the truncated tail the
same record loads fine. -/
theorem loadWAL_truncated_record_fails :
    (LoadWAL (walRecA ++ [10])).toOption = some [⟨4096, [97], []⟩]
    ∧ (LoadWAL walFileTruncated).toOption = none := by
  decide

/-- C8: reading a single-entry SSTable faults for a smaller key the bloom
filter accepts.  The sparse index has its one anchor at offset 0 and the
stored key reads back fine, and a larger absent key reports not-found; but
for a key below the stored key the binary search exits with `min = max = 0`
and dereferences `sparseIndex[1]`, an index out of range. -/
theorem sstable_single_entry_read_faults :
    singleEntryTable.toOption.map
        (fun t => (t.sparseIndex, t.Read [98], t.Read [97], t.Read [99])) =
      some ([([98], 0)], ReadResult.ok RecordKindWrite [7] true,
        ReadResult.fault, ReadResult.ok 0 [] false) := by
  decide

/-- C9: `LsmTree.Set` reports success although the WAL append failed.  With a
root chunk whose WAL write returns an I/O error, `Set` discards the error
returned by the chunk's `set` (the record reaches neither the WAL nor the
skiplist) and returns `ok`. -/
theorem lsmSet_swallows_wal_error :
    exceptIsOk (failingRootTree.Set [97] [1] "n1").2 = true
    ∧ (failingRootTree.Set [97] [1] "n1").1.rootChunk.data =
        ChunkData.skiplist failingWalChunk := by
  decide

/-- C10 counterexample: with one record parsed cleanly before the load error,
the rebuilt memtable is empty — `LoadWAL` returns no entries alongside its
error, so the entries parsed before the failure are not replayed. -/
theorem newSkipListChunk_drops_entries_parsed_before_error :
    (newSkipListChunk (some walFileTruncated)).list.elems = []
    ∧ (LoadWAL (walRecA ++ [10])).toOption = some [⟨4096, [97], []⟩]
    ∧ walFileTruncated = (walRecA ++ [10]) ++ walRecA.take 4 := by
  decide

/-- C6: for strictly ascending inputs, the stream `parallellMerge` feeds the
builder has strictly ascending keys with no duplicates, and each emitted
entry's value bytes are those of the smallest-indexed input containing its
key (the first per-input hit of `findSome?`). -/
theorem parallellMerge_correct (its : List (List Entry))
    (hasc : ∀ l ∈ its, ascE l = true) :
    ascE (parallellMerge its) = true
    ∧ noDupKeysE (parallellMerge its) = true
    ∧ ∀ e ∈ parallellMerge its,
        ∃ src, (its.findSome? fun l => l.find? (fun x => x.key == e.key)) = some src
          ∧ src.key = e.key ∧ src.data = e.data :=
  ⟨parallellMerge_asc hasc, ascE_noDup (parallellMerge_asc hasc),
   fun e he =>
     let ⟨src, h1, h2, h3, _⟩ := parallellMerge_src hasc e he
     ⟨src, h1, h2, h3⟩⟩

/-- Witness for C6 at the spec's merging-iterator scenario: two ascending
inputs with an overlapping key, the first input considered newer. -/
theorem parallellMerge_correct_witness :
    (∀ l ∈ mergeWitnessInputs, ascE l = true)
    ∧ (ascE (parallellMerge mergeWitnessInputs) = true
       ∧ noDupKeysE (parallellMerge mergeWitnessInputs) = true
       ∧ ∀ e ∈ parallellMerge mergeWitnessInputs,
           ∃ src, (mergeWitnessInputs.findSome? fun l =>
               l.find? (fun x => x.key == e.key)) = some src
             ∧ src.key = e.key ∧ src.data = e.data) :=
  ⟨by decide, parallellMerge_correct mergeWitnessInputs (by decide)⟩

/-- C5 amended: when the newest record for a (nonempty) key among the
compacted inputs is a DELETE tombstone, compaction does emit an entry for
that key with the tombstone's value bytes, but re-encoded as a
`RecordKindWrite` record — the DELETE kind is not preserved. -/
theorem parallellMerge_emits_tombstone_as_write (its : List (List Entry)) (k : Key)
    (d : List Nat) (hasc : ∀ l ∈ its, ascE l = true) (hk : k ≠ [])
    (hnew : (its.findSome? fun l => l.find? (fun x => x.key == k)) =
      some ⟨k, RecordKindDelete, d⟩) :
    (⟨k, RecordKindWrite, d⟩ : Entry) ∈ parallellMerge its := by
  obtain ⟨l, hl, hfl⟩ := List.exists_of_findSome?_eq_some hnew
  have htomb : (⟨k, RecordKindDelete, d⟩ : Entry) ∈ l := List.mem_of_find?_eq_some hfl
  obtain ⟨y, hy, hyk⟩ := parallellMerge_covers hasc hl htomb hk
  obtain ⟨src, hfind, hks, hds, hkind⟩ := parallellMerge_src hasc y hy
  have hyk' : y.key = k := hyk
  rw [hyk', hnew] at hfind
  injection hfind with hsrc
  rw [← hsrc] at hds
  have hyd : y.data = d := hds.symm
  have hgoal : y = ⟨k, RecordKindWrite, d⟩ := by
    rcases y with ⟨yk, ykind, yd⟩
    simp only at hyk' hkind hyd
    rw [hyk', hkind, hyd]
  rw [← hgoal]
  exact hy

/-- Witness for the amended C5: the newest input holds a tombstone for `"a"`,
an older input a write of the same key; the merged stream contains the
tombstone's key and value re-kinded as WRITE. -/
theorem parallellMerge_emits_tombstone_as_write_witness :
    ((∀ l ∈ tombWitnessInputs, ascE l = true)
      ∧ ([97] : Key) ≠ []
      ∧ (tombWitnessInputs.findSome? fun l => l.find? (fun x => x.key == [97])) =
          some ⟨[97], RecordKindDelete, [5]⟩)
    ∧ (⟨[97], RecordKindWrite, [5]⟩ : Entry) ∈ parallellMerge tombWitnessInputs :=
  ⟨⟨by decide, by decide, by decide⟩,
   parallellMerge_emits_tombstone_as_write tombWitnessInputs [97] [5]
     (by decide) (by decide) (by decide)⟩

/-- C10 amended: rebuilding a memtable over an existing WAL file never fails
because of the file's content, but when `LoadWAL` errors the memtable starts
empty — the entries parsed before the error are discarded with it — and after
any replay the tracked `dataSize` is 0. -/
theorem newSkipListChunk_replay_total (bs : List Nat) :
    (newSkipListChunk (some bs)).dataSize = 0
    ∧ (exceptIsOk (LoadWAL bs) = false →
        (newSkipListChunk (some bs)).list = NewSkipList SkiplistEntry) := by
  constructor
  · cases hL : LoadWAL bs <;> simp [newSkipListChunk, hL]
  · intro h
    cases hL : LoadWAL bs
    · simp [newSkipListChunk, hL]
    · rw [hL] at h
      simp [exceptIsOk] at h

/-- Witness for the amended C10 at the truncated WAL file: the load errors,
the memtable comes up empty with `dataSize = 0`. -/
theorem newSkipListChunk_replay_total_witness :
    exceptIsOk (LoadWAL walFileTruncated) = false
    ∧ (newSkipListChunk (some walFileTruncated)).dataSize = 0
    ∧ (newSkipListChunk (some walFileTruncated)).list = NewSkipList SkiplistEntry :=
  ⟨by decide, (newSkipListChunk_replay_total walFileTruncated).1,
   (newSkipListChunk_replay_total walFileTruncated).2 (by decide)⟩
